import Mathlib

/-!
Verification of the path-sanitisation core of `nxdumptool`
(`source/core/nxdt_utils.c`): the UTF-8 codepoint decoder, the illegal
character filter `utilsReplaceIllegalCharacters`, the truncation boundary
finder `utilsGetUtf8StringLimit`, and the path synthesizer
`utilsGeneratePath`.

Strings are modelled as the byte content of the C buffers: `List Nat`,
one entry per byte, without the terminating nul.  A read past the end of
the list (`List.getD _ _ 0`) yields `0`, which models the terminating nul
byte of the C buffer (`utilsGeneratePath` allocates with `calloc` and
maintains a nul terminator at the end of the live region, and none of the
modelled loops ever reads more than one sequence past a failed
continuation check, so every modelled out-of-bounds read corresponds to a
read of the nul terminator in C).

All loops are modelled by structural recursion on an explicit fuel
argument so that every definition evaluates by kernel reduction.  Each
public wrapper passes fuel `length + 1`; every modelled loop advances its
position by at least one byte per iteration and stops once the position
reaches the string size, so this fuel is never exhausted.  The fuel-zero
branches return the same value the loop's exit path returns (or a failure
for `genLoop`), and the theorems below never depend on reaching them.
-/

/-!
Modelled from the spec: `CodepointDecoder` (§4.1), the libnx
`decode_utf8` routine used by `nxdt_utils.c` but not part of this
repository's sources.  `decodeBytes` decodes one UTF-8 codepoint from
four candidate bytes: 1- to 4-byte sequences with canonical
continuation-byte rules, rejecting malformed lead bytes
(`0x80..0xC1`, `0xF5..`), malformed continuation bytes, and overlong /
out-of-range encodings (`E0 80..9F`, `F0 80..8F`, `F4 90..`).  It
returns the codepoint and the number of bytes consumed, or `none`
(C: `-1`).  The C routine reads the later bytes lazily; taking them
eagerly as arguments returns the same result because every branch
ignores the bytes the C routine does not read.  The multi-byte branches
are split into `decode2`, `decode3` and `decode4`, mirroring the
sections of the C routine.
-/

/-- The 2-byte branch of `decode_utf8`. -/
def decode2 (b0 b1 : Nat) : Option (Nat × Nat) :=
  if b1 &&& 0xC0 ≠ 0x80 then none
  else some (b0 * 0x40 + b1 - 0x3080, 2)

/-- The 3-byte branch of `decode_utf8`. -/
def decode3 (b0 b1 b2 : Nat) : Option (Nat × Nat) :=
  if b1 &&& 0xC0 ≠ 0x80 then none
  else if b0 = 0xE0 ∧ b1 < 0xA0 then none
  else if b2 &&& 0xC0 ≠ 0x80 then none
  else some (b0 * 0x1000 + b1 * 0x40 + b2 - 0xE2080, 3)

/-- The 4-byte branch of `decode_utf8`. -/
def decode4 (b0 b1 b2 b3 : Nat) : Option (Nat × Nat) :=
  if b1 &&& 0xC0 ≠ 0x80 then none
  else if b0 = 0xF0 ∧ b1 < 0x90 then none
  else if b0 = 0xF4 ∧ 0x90 ≤ b1 then none
  else if b2 &&& 0xC0 ≠ 0x80 then none
  else if b3 &&& 0xC0 ≠ 0x80 then none
  else some (b0 * 0x40000 + b1 * 0x1000 + b2 * 0x40 + b3 - 0x3C82080, 4)

/-- Dispatch on the lead byte. -/
def decodeBytes (b0 b1 b2 b3 : Nat) : Option (Nat × Nat) :=
  if b0 < 0x80 then some (b0, 1)
  else if b0 < 0xC2 then none
  else if b0 < 0xE0 then decode2 b0 b1
  else if b0 < 0xF0 then decode3 b0 b1 b2
  else if b0 < 0xF5 then decode4 b0 b1 b2 b3
  else none

/-- `decode_utf8(&code, s + pos)`: decode one codepoint of `s` starting at
byte offset `pos`.  Reads at most four bytes; bytes past the end of the
list read as the nul terminator `0`. -/
def decodeUtf8 (s : List Nat) (pos : Nat) : Option (Nat × Nat) :=
  decodeBytes (s.getD pos 0) (s.getD (pos + 1) 0) (s.getD (pos + 2) 0) (s.getD (pos + 3) 0)

/-- `NT_MAX_FILENAME_LENGTH` (`nxdt_utils.c` line 37): per path component
byte limit. -/
def NT_MAX_FILENAME_LENGTH : Nat := 255

/-- Modelled from the spec: `MAX_PATH_BYTES`, the platform path limit
`FS_MAX_PATH` of libnx (`0x301`), consumed but not defined by
`nxdt_utils.c`. -/
def FS_MAX_PATH : Nat := 0x301

/-- The loop of `utilsGetUtf8StringLimit` (lines 1191-1199): scan
codepoints from `cur`, remembering in `last` each cumulative offset that
stays strictly below `byte_limit`; stop on decode failure, a zero
codepoint, or a codepoint that would extend past `str_size`. -/
def limitLoop (s : List Nat) (str_size byte_limit : Nat) : Nat → Nat → Nat → Nat
  | 0, _, last => last
  | fuel + 1, cur, last =>
    if cur < str_size ∧ cur < byte_limit then
      match decodeUtf8 s cur with
      | none => last
      | some (code, units) =>
        if code = 0 ∨ str_size < cur + units then last
        else
          limitLoop s str_size byte_limit fuel (cur + units)
            (if cur + units < byte_limit then cur + units else last)
    else last

/-- `utilsGetUtf8StringLimit(str, str_size, byte_limit)` (lines
1180-1202).  The C null-pointer check has no counterpart; `!*str` is the
first-byte-is-nul check. -/
def utilsGetUtf8StringLimit (s : List Nat) (str_size byte_limit : Nat) : Nat :=
  if s.getD 0 0 = 0 ∨ str_size = 0 ∨ byte_limit = 0 then 0
  else if str_size < byte_limit then str_size
  else limitLoop s str_size byte_limit (str_size + 1) 0 0

example : utilsGetUtf8StringLimit [97, 98] 2 2 = 1 := by decide
example : utilsGetUtf8StringLimit [97, 98] 2 3 = 2 := by decide
example : utilsGetUtf8StringLimit [97, 195, 169] 3 2 = 1 := by decide
example : decodeUtf8 [195, 169] 0 = some (233, 2) := by decide
example : decodeUtf8 [226, 130, 172] 0 = some (8364, 3) := by decide
example : decodeUtf8 [255] 0 = none := by decide
example : decodeUtf8 [0xE0, 0x9F, 0x80] 0 = none := by decide

/-- `g_illegalFileSystemChars` (line 76): the bytes of `\/:*?"<>|`. -/
def g_illegalFileSystemChars : List Nat := [92, 47, 58, 42, 63, 34, 60, 62, 124]

/-- The replacement test of `utilsReplaceIllegalCharacters` (line 581).
`memchr(g_illegalFileSystemChars, (int)code, ...)` compares the codepoint
converted to `unsigned char`, hence the `% 256`. -/
def isIllegalCp (code : Nat) (ascii_only : Bool) : Bool :=
  g_illegalFileSystemChars.contains (code % 256) || code < 0x20 ||
    (!ascii_only && code == 0x7F) || (ascii_only && 0x7F ≤ code)

/-- The loop of `utilsReplaceIllegalCharacters` (lines 576-591): walk the
string codepoint by codepoint; an illegal codepoint contributes the single
byte `_` (0x5F), a legal one is copied byte for byte; stop (truncating the
output) on decode failure.  The C code compacts in place with a write
cursor trailing a read cursor and nul-terminates at the write cursor;
the resulting string content is exactly this concatenation of chunks. -/
def repLoop (s : List Nat) (ascii_only : Bool) : Nat → Nat → List Nat
  | 0, _ => []
  | fuel + 1, pos =>
    if pos < s.length then
      match decodeUtf8 s pos with
      | none => []
      | some (code, units) =>
        (if isIllegalCp code ascii_only then [95] else (s.drop pos).take units) ++
          repLoop s ascii_only fuel (pos + units)
    else []

/-- `utilsReplaceIllegalCharacters(str, ascii_only)` (lines 566-594),
as the string content transformation it performs.  The C guard
`!str || !(str_size = strlen(str))` (empty string) leaves the buffer
unchanged, which coincides with the loop producing `[]` from `[]`. -/
def utilsReplaceIllegalCharacters (s : List Nat) (ascii_only : Bool) : List Nat :=
  repLoop s ascii_only (s.length + 1) 0

-- Scenario A: "a:b*c" → "a_b_c"; Scenario B: "héllo\x01" ascii → "h_llo_"
example : utilsReplaceIllegalCharacters [97, 58, 98, 42, 99] false = [97, 95, 98, 95, 99] := by
  decide
example :
    utilsReplaceIllegalCharacters [104, 195, 169, 108, 108, 111, 1] true =
      [104, 95, 108, 108, 111, 95] := by
  decide
example : utilsReplaceIllegalCharacters [104, 195, 169] false = [104, 195, 169] := by decide
example : utilsReplaceIllegalCharacters [104, 195] false = [104] := by decide

/-- Full-scan UTF-8 validity from byte offset `pos`: every codepoint of
the remainder decodes. -/
def utf8ValidFrom (s : List Nat) : Nat → Nat → Bool
  | 0, _ => false
  | fuel + 1, pos =>
    if pos < s.length then
      match decodeUtf8 s pos with
      | none => false
      | some (_, units) => utf8ValidFrom s fuel (pos + units)
    else true

/-- A byte string is valid UTF-8 when the whole decode scan succeeds. -/
def utf8Valid (s : List Nat) : Bool :=
  utf8ValidFrom s (s.length + 1) 0

/-- `insideFrom s fuel pos k` scans codepoints from `pos` and reports
whether `k` falls strictly inside one of the decoded multi-byte
sequences. -/
def insideFrom (s : List Nat) (k : Nat) : Nat → Nat → Bool
  | 0, _ => false
  | fuel + 1, pos =>
    if pos < s.length then
      match decodeUtf8 s pos with
      | none => false
      | some (_, units) =>
        if pos < k ∧ k < pos + units then true
        else insideFrom s k fuel (pos + units)
    else false

/-- `k` splits a multi-byte sequence of `s`: the decode scan of `s` from
offset 0 produces a codepoint whose byte span strictly contains `k`. -/
def splitsCodepoint (s : List Nat) (k : Nat) : Bool :=
  insideFrom s k (s.length + 1) 0

/-- `Utf8ReachFrom s p q`: the decode scan of `s` started at offset `p`
passes through offset `q`. -/
inductive Utf8ReachFrom (s : List Nat) : Nat → Nat → Prop
  | refl (p : Nat) : Utf8ReachFrom s p p
  | step {p q c u : Nat} : Utf8ReachFrom s p q → q < s.length →
      decodeUtf8 s q = some (c, u) → Utf8ReachFrom s p (q + u)

example : utf8Valid [104, 195, 169] = true := by decide
example : utf8Valid [104, 195] = false := by decide
example : splitsCodepoint [104, 195, 169] 2 = true := by decide
example : splitsCodepoint [104, 195, 169] 1 = false := by decide
example : splitsCodepoint [104, 195, 169] 3 = false := by decide

/-- The failure modes of `utilsGeneratePath`.  The C function returns
`NULL` in every case; the cases are told apart by the distinct
`LOG_MSG_ERROR` branches (lines 765, 836, 853). -/
inductive PathError where
  | invalidArguments
  | extensionTooLong
  | pathTooLong
  deriving DecidableEq, Repr

/-- `strchr(l, '/')` on the byte content `l`: the offset of the first
path separator, if any. -/
def findSep : List Nat → Option Nat
  | [] => none
  | b :: rest => if b = 47 then some 0 else (findSep rest).map (· + 1)

/-- The element-truncation loop of `utilsGeneratePath` (lines 804-848).
`buf` is the current path content, `i` the offset of the current path
element (`ptr1` after stepping past the separator).  Each iteration finds
the next separator (`ptr2`), measures the element, computes its UTF-8
limit against `NT_MAX_FILENAME_LENGTH`, and on truncation either shifts
the rest of the path left (non-final element), splices the extension to
end at the truncated boundary (final element with extension, failing with
`ExtensionTooLong` when the extension does not fit), or cuts the final
element.  The returned flag records whether the final element was
truncated.  The C loop's `if (!*ptr1++) break` can only test the
separator byte itself, which is never nul, so it has no counterpart. -/
def genLoop (use_ext : Bool) (ext_len : Nat) :
    Nat → List Nat → Nat → Except PathError (List Nat × Bool)
  | 0, _, _ => .error .pathTooLong
  | fuel + 1, buf, i =>
    match findSep (buf.drop i) with
    | some d =>
      let lcp := utilsGetUtf8StringLimit (buf.drop i) d NT_MAX_FILENAME_LENGTH
      if lcp < d then
        genLoop use_ext ext_len fuel (buf.take (i + lcp) ++ buf.drop (i + d)) (i + lcp + 1)
      else
        genLoop use_ext ext_len fuel buf (i + d + 1)
    | none =>
      let esize := buf.length - i
      let lcp := utilsGetUtf8StringLimit (buf.drop i) esize NT_MAX_FILENAME_LENGTH
      if lcp < esize then
        if use_ext then
          if ext_len ≥ lcp then .error .extensionTooLong
          else .ok (buf.take (i + lcp - ext_len) ++ buf.drop (buf.length - ext_len), true)
        else .ok (buf.take (i + lcp), true)
      else .ok (buf, false)

/-- `utilsGeneratePath(prefix, filename, extension)` (lines 761-868),
instrumented with the final-element-truncated flag of `genLoop`.
`none` models a `NULL` C string argument, `some []` an empty one; the
result is the generated path content or the failure cause (C: `NULL`).
The `calloc` failure path is not modelled. -/
def utilsGeneratePathT (pre fname extension : Option (List Nat)) :
    Except PathError (List Nat × Bool) :=
  match fname with
  | none => .error .invalidArguments
  | some f =>
    if f = [] then .error .invalidArguments
    else
      let preB := pre.getD []
      let extB := extension.getD []
      let append_sep := preB ≠ [] ∧ preB.getLastD 0 ≠ 47
      let path0 := preB ++ (if append_sep then [47] else []) ++ f ++ extB
      let r :=
        match findSep path0 with
        | some d => genLoop (extB ≠ []) extB.length (path0.length + 1) path0 (d + 1)
        | none => genLoop (extB ≠ []) extB.length (path0.length + 1) path0 0
      match r with
      | .error e => .error e
      | .ok (buf, t) =>
        if FS_MAX_PATH ≤ buf.length then .error .pathTooLong else .ok (buf, t)

/-- `utilsGeneratePath` proper: the generated path content on success. -/
def utilsGeneratePath (pre fname extension : Option (List Nat)) :
    Except PathError (List Nat) :=
  (utilsGeneratePathT pre fname extension).map Prod.fst

instance {ε α : Type} [DecidableEq ε] [DecidableEq α] : DecidableEq (Except ε α)
  | .error a, .error b =>
    decidable_of_iff (a = b) ⟨fun h => by rw [h], fun h => by cases h; rfl⟩
  | .error _, .ok _ => .isFalse (fun h => by cases h)
  | .ok _, .error _ => .isFalse (fun h => by cases h)
  | .ok a, .ok b =>
    decidable_of_iff (a = b) ⟨fun h => by rw [h], fun h => by cases h; rfl⟩

/-- The path components: the maximal runs of bytes between separators
(`/` = 47), including the empty runs at the ends. -/
def componentsOf : List Nat → List (List Nat)
  | [] => [[]]
  | b :: rest =>
    if b = 47 then [] :: componentsOf rest
    else
      match componentsOf rest with
      | c :: cs => (b :: c) :: cs
      | [] => [[b]]

/-- The last path component. -/
def lastComponent (p : List Nat) : List Nat :=
  (componentsOf p).getLastD []

example : componentsOf [97, 47, 98, 98] = [[97], [98, 98]] := by decide
example : componentsOf [47, 97] = [[], [97]] := by decide
example : lastComponent [97, 47, 98, 98] = [98, 98] := by decide

-- Scenario D: filename only, no changes.
example :
    utilsGeneratePath none (some [118, 97, 108, 105, 100]) none =
      .ok [118, 97, 108, 105, 100] := by
  decide
-- Prefix without trailing separator gets one; short elements untouched.
example :
    utilsGeneratePath (some [115, 100, 58]) (some [102]) (some [46, 116]) =
      .ok [115, 100, 58, 47, 102, 46, 116] := by
  decide
-- Invalid bytes in short elements pass straight through.
example : utilsGeneratePath none (some [255]) none = .ok [255] := by decide

/-!
### Basic facts about the codepoint decoder
-/

theorem decode2_some {b0 b1 c u : Nat} (h : decode2 b0 b1 = some (c, u)) :
    u = 2 ∧ b1 &&& 192 = 128 := by
  unfold decode2 at h
  split_ifs at h with h1
  rw [Option.some.injEq, Prod.mk.injEq] at h
  omega

theorem decode3_some {b0 b1 b2 c u : Nat} (h : decode3 b0 b1 b2 = some (c, u)) :
    u = 3 ∧ b1 &&& 192 = 128 ∧ b2 &&& 192 = 128 := by
  unfold decode3 at h
  split_ifs at h with h1 h2 h3
  rw [Option.some.injEq, Prod.mk.injEq] at h
  omega

theorem decode4_some {b0 b1 b2 b3 c u : Nat} (h : decode4 b0 b1 b2 b3 = some (c, u)) :
    u = 4 ∧ b1 &&& 192 = 128 ∧ b2 &&& 192 = 128 ∧ b3 &&& 192 = 128 := by
  unfold decode4 at h
  split_ifs at h with h1 h2 h3 h4 h5
  rw [Option.some.injEq, Prod.mk.injEq] at h
  omega

/-- A decoded codepoint occupies between 1 and 4 bytes. -/
theorem decodeBytes_units {b0 b1 b2 b3 c u : Nat}
    (h : decodeBytes b0 b1 b2 b3 = some (c, u)) : 1 ≤ u ∧ u ≤ 4 := by
  unfold decodeBytes at h
  split_ifs at h
  · rw [Option.some.injEq, Prod.mk.injEq] at h; omega
  · have := decode2_some h; omega
  · have := decode3_some h; omega
  · have := decode4_some h; omega

/-- Every byte of a decoded codepoint after the lead byte is a
continuation byte `10xxxxxx`. -/
theorem decodeBytes_cont {b0 b1 b2 b3 c u : Nat}
    (h : decodeBytes b0 b1 b2 b3 = some (c, u)) :
    (2 ≤ u → b1 &&& 192 = 128) ∧ (3 ≤ u → b2 &&& 192 = 128) ∧ (4 ≤ u → b3 &&& 192 = 128) := by
  unfold decodeBytes at h
  split_ifs at h
  · rw [Option.some.injEq, Prod.mk.injEq] at h
    refine ⟨?_, ?_, ?_⟩ <;> omega
  · have := decode2_some h; refine ⟨?_, ?_, ?_⟩ <;> omega
  · have := decode3_some h; refine ⟨?_, ?_, ?_⟩ <;> omega
  · have := decode4_some h; refine ⟨?_, ?_, ?_⟩ <;> omega

/-- A successful decode only depends on the bytes it consumed. -/
theorem decodeBytes_agree {b0 b1 b2 b3 c u : Nat} (c1 c2 c3 : Nat)
    (h : decodeBytes b0 b1 b2 b3 = some (c, u))
    (h1 : 2 ≤ u → c1 = b1) (h2 : 3 ≤ u → c2 = b2) (h3 : 4 ≤ u → c3 = b3) :
    decodeBytes b0 c1 c2 c3 = some (c, u) := by
  unfold decodeBytes at h ⊢
  split_ifs at h with g1 g2 g3 g4 g5
  · rw [if_pos g1]; exact h
  · have hu := (decode2_some h).1
    rw [if_neg g1, if_neg g2, if_pos g3, h1 (by omega)]
    exact h
  · have hu := (decode3_some h).1
    rw [if_neg g1, if_neg g2, if_neg g3, if_pos g4, h1 (by omega), h2 (by omega)]
    exact h
  · have hu := (decode4_some h).1
    rw [if_neg g1, if_neg g2, if_neg g3, if_neg g4, if_pos g5,
      h1 (by omega), h2 (by omega), h3 (by omega)]
    exact h

theorem getD_append_len {α : Type} (c t : List α) (k : Nat) (d : α) :
    (c ++ t).getD (c.length + k) d = t.getD k d := by
  rw [List.getD_append_right c t d (c.length + k) (by omega)]
  congr 1
  omega

/-- Decoding is invariant under translation past a prefix. -/
theorem decodeUtf8_shift (c t : List Nat) (k : Nat) :
    decodeUtf8 (c ++ t) (c.length + k) = decodeUtf8 t k := by
  unfold decodeUtf8
  rw [show c.length + k + 1 = c.length + (k + 1) by omega,
    show c.length + k + 2 = c.length + (k + 2) by omega,
    show c.length + k + 3 = c.length + (k + 3) by omega,
    getD_append_len, getD_append_len, getD_append_len, getD_append_len]

/-- A codepoint decoded inside the string never extends past its end:
continuation bytes are nonzero, while reads past the end yield the nul
terminator. -/
theorem decodeUtf8_bound {s : List Nat} {pos c u : Nat}
    (h : decodeUtf8 s pos = some (c, u)) (hp : pos < s.length) : pos + u ≤ s.length := by
  unfold decodeUtf8 at h
  obtain ⟨hu1, hu4⟩ := decodeBytes_units h
  obtain ⟨c1, c2, c3⟩ := decodeBytes_cont h
  by_contra hlt
  push_neg at hlt
  have hcase : u = 1 ∨ u = 2 ∨ u = 3 ∨ u = 4 := by omega
  rcases hcase with hu | hu | hu | hu <;> subst hu
  · omega
  · have e : s.getD (pos + 1) 0 = 0 := List.getD_eq_default _ _ (by omega)
    have hb := c1 (by omega)
    rw [e] at hb
    exact absurd hb (by decide)
  · have e : s.getD (pos + 2) 0 = 0 := List.getD_eq_default _ _ (by omega)
    have hb := c2 (by omega)
    rw [e] at hb
    exact absurd hb (by decide)
  · have e : s.getD (pos + 3) 0 = 0 := List.getD_eq_default _ _ (by omega)
    have hb := c3 (by omega)
    rw [e] at hb
    exact absurd hb (by decide)

theorem getD_drop_take {s : List Nat} {pos u j : Nat} (r : List Nat)
    (hj : j < u) (hs : pos + u ≤ s.length) :
    ((s.drop pos).take u ++ r).getD j 0 = s.getD (pos + j) 0 := by
  have hlen : ((s.drop pos).take u).length = u := by
    simp only [List.length_take, List.length_drop]
    omega
  rw [List.getD_append _ _ _ _ (by omega), List.getD_eq_getElem _ _ (by omega),
    List.getD_eq_getElem _ _ (by omega : pos + j < s.length)]
  rw [List.getElem_take, List.getElem_drop]

/-- The copied byte span of a decoded codepoint decodes identically at
the head of any continuation. -/
theorem decodeUtf8_chunk {s : List Nat} {pos c u : Nat}
    (h : decodeUtf8 s pos = some (c, u)) (hspan : pos + u ≤ s.length) (r : List Nat) :
    decodeUtf8 ((s.drop pos).take u ++ r) 0 = some (c, u) := by
  have hu1 := (decodeBytes_units h).1
  unfold decodeUtf8 at h ⊢
  have e0 : ((s.drop pos).take u ++ r).getD 0 0 = s.getD (pos + 0) 0 :=
    getD_drop_take r (by omega) hspan
  rw [show pos + 0 = pos by omega] at e0
  rw [e0]
  exact decodeBytes_agree _ _ _ h
    (fun h2 => by rw [getD_drop_take r (by omega) hspan])
    (fun h3 => by rw [getD_drop_take r (by omega) hspan])
    (fun h4 => by rw [getD_drop_take r (by omega) hspan])

/-!
### The truncation boundary lands on a codepoint boundary
-/

theorem decodeUtf8_units_pos {s : List Nat} {pos c u : Nat}
    (h : decodeUtf8 s pos = some (c, u)) : 1 ≤ u := by
  unfold decodeUtf8 at h
  exact (decodeBytes_units h).1

theorem Utf8ReachFrom.le {s : List Nat} {p k : Nat} (h : Utf8ReachFrom s p k) : p ≤ k := by
  induction h with
  | refl => exact Nat.le_refl _
  | step _ _ _ ih => omega

/-- Codepoint spans of the decode scan never overlap: a reachable offset
`q` whose codepoint ends at `q + u` cannot be jumped over by the scan. -/
theorem utf8Reach_noCross {s : List Nat} :
    ∀ x, Utf8ReachFrom s 0 x → ∀ q c u, Utf8ReachFrom s 0 q →
      decodeUtf8 s q = some (c, u) → q < s.length → q < x → q + u ≤ x := by
  intro x
  induction x using Nat.strong_induction_on with
  | _ x ih =>
    intro hx q c u hq hdec hqlen hqx
    cases hx with
    | refl => omega
    | step hm hmlen hmdec =>
      rename_i m c' w
      have hw1 : 1 ≤ w := decodeUtf8_units_pos hmdec
      rcases Nat.lt_trichotomy q m with hlt | heq | hgt
      · have := ih m (by omega) hm q c u hq hdec hqlen hlt
        omega
      · subst heq
        rw [hdec] at hmdec
        rw [Option.some.injEq, Prod.mk.injEq] at hmdec
        omega
      · have := ih q hqx hq m c' w hm hmdec hmlen hgt
        omega

/-- A reachable offset never splits a codepoint. -/
theorem insideFrom_false_of_reach {s : List Nat} {k : Nat} (hk : Utf8ReachFrom s 0 k) :
    ∀ fuel pos, Utf8ReachFrom s 0 pos → insideFrom s k fuel pos = false := by
  intro fuel
  induction fuel with
  | zero => intro pos _; rfl
  | succ f ih =>
    intro pos hpos
    unfold insideFrom
    split
    · next hlt =>
      split
      · rfl
      · next c u heq =>
        have hnin : ¬(pos < k ∧ k < pos + u) := by
          intro ⟨h1, h2⟩
          have := utf8Reach_noCross k hk pos c u hpos heq hlt h1
          omega
        rw [if_neg hnin]
        exact ih (pos + u) (hpos.step hlt heq)
    · rfl

/-- The string end never splits a codepoint. -/
theorem insideFrom_length_false (s : List Nat) :
    ∀ fuel pos, insideFrom s s.length fuel pos = false := by
  intro fuel
  induction fuel with
  | zero => intro pos; rfl
  | succ f ih =>
    intro pos
    unfold insideFrom
    split
    · next hlt =>
      split
      · rfl
      · next c u heq =>
        have hb := decodeUtf8_bound heq hlt
        rw [if_neg (by omega : ¬(pos < s.length ∧ s.length < pos + u))]
        exact ih (pos + u)
    · rfl

/-- The offset produced by the scan loop of `utilsGetUtf8StringLimit` is
an offset the decode scan reaches. -/
theorem limitLoop_reach {s : List Nat} {str_size byte_limit : Nat}
    (hsz : str_size ≤ s.length) :
    ∀ fuel cur last, Utf8ReachFrom s 0 cur → Utf8ReachFrom s 0 last →
      Utf8ReachFrom s 0 (limitLoop s str_size byte_limit fuel cur last) := by
  intro fuel
  induction fuel with
  | zero => intro cur last _ hl; exact hl
  | succ f ih =>
    intro cur last hc hl
    unfold limitLoop
    split
    · next hcond =>
      split
      · exact hl
      · next c u heq =>
        split
        · exact hl
        · have hcur' : Utf8ReachFrom s 0 (cur + u) := hc.step (by omega) heq
          refine ih (cur + u) _ hcur' ?_
          split
          · exact hcur'
          · exact hl
    · exact hl

/-- The scan loop never returns an offset at or beyond `byte_limit`. -/
theorem limitLoop_lt {s : List Nat} {str_size byte_limit : Nat} :
    ∀ fuel cur last, last < byte_limit →
      limitLoop s str_size byte_limit fuel cur last < byte_limit := by
  intro fuel
  induction fuel with
  | zero => intro cur last hl; exact hl
  | succ f ih =>
    intro cur last hl
    unfold limitLoop
    split
    · next hcond =>
      split
      · exact hl
      · next c u heq =>
        split
        · exact hl
        · refine ih (cur + u) _ ?_
          split
          · next hrec => exact hrec
          · exact hl
    · exact hl

/-- Once the position reaches the budget the loop returns `last`. -/
theorem limitLoop_ge {s : List Nat} {str_size byte_limit : Nat} :
    ∀ fuel cur last, byte_limit ≤ cur →
      limitLoop s str_size byte_limit fuel cur last = last := by
  intro fuel cur last hge
  cases fuel with
  | zero => rfl
  | succ f =>
    unfold limitLoop
    rw [if_neg (by omega)]

/-- The returned limit never exceeds the byte budget. -/
theorem utilsGetUtf8StringLimit_le (s : List Nat) (str_size byte_limit : Nat) :
    utilsGetUtf8StringLimit s str_size byte_limit ≤ byte_limit := by
  unfold utilsGetUtf8StringLimit
  split_ifs with h1 h2
  · omega
  · omega
  · have := @limitLoop_lt s str_size byte_limit (str_size + 1) 0 0 (by omega)
    omega

/-- The returned limit never splits a multi-byte sequence. -/
theorem utilsGetUtf8StringLimit_boundary (s : List Nat) (byte_limit : Nat) :
    splitsCodepoint s (utilsGetUtf8StringLimit s s.length byte_limit) = false := by
  unfold splitsCodepoint utilsGetUtf8StringLimit
  split_ifs with h1 h2
  · exact insideFrom_false_of_reach (.refl 0) _ 0 (.refl 0)
  · exact insideFrom_length_false s _ 0
  · have hr := @limitLoop_reach s s.length byte_limit (Nat.le_refl s.length)
      (s.length + 1) 0 0 (Utf8ReachFrom.refl 0) (Utf8ReachFrom.refl 0)
    exact insideFrom_false_of_reach hr _ 0 (.refl 0)

/-- When even the first codepoint does not fit strictly inside the
budget, the limit is 0. -/
theorem utilsGetUtf8StringLimit_zero (s : List Nat) (n : Nat) (hn : n ≤ s.length)
    (hfit : ∀ c u, decodeUtf8 s 0 = some (c, u) → n ≤ u) :
    utilsGetUtf8StringLimit s s.length n = 0 := by
  unfold utilsGetUtf8StringLimit
  split_ifs with h1 h2
  · rfl
  · omega
  · have hlen : s.length ≠ 0 ∧ n ≠ 0 := by
      constructor <;> (intro h; exact h1 (by omega))
    rcases Nat.exists_eq_succ_of_ne_zero (by omega : s.length + 1 ≠ 0) with ⟨f, hf⟩
    rw [hf]
    unfold limitLoop
    rw [if_pos (by omega : (0 : Nat) < s.length ∧ 0 < n)]
    split
    · rfl
    · next c u heq =>
      have hnu : n ≤ u := hfit c u heq
      split
      · rfl
      · rw [if_neg (by omega : ¬0 + u < n)]
        exact limitLoop_ge f (0 + u) 0 (by omega)

/-- With a budget strictly larger than the string, no truncation
happens. -/
theorem utilsGetUtf8StringLimit_no_trunc (s : List Nat) (n : Nat)
    (hnul : ∀ b ∈ s, b ≠ 0) (hn : s.length < n) :
    utilsGetUtf8StringLimit s s.length n = s.length := by
  unfold utilsGetUtf8StringLimit
  split_ifs with h1
  · rcases h1 with h | h | h
    · by_cases hl : s.length = 0
      · omega
      · have hmem : s.getD 0 0 ∈ s := by
          rw [List.getD_eq_getElem _ _ (by omega : 0 < s.length)]
          exact s.getElem_mem _
        exact absurd h (hnul _ hmem)
    · omega
    · omega
  · rfl

/-- C3 as stated fails when the budget equals the byte length: on the
two-byte string "ab" with budget 2 the function returns 1, not 2. -/
theorem claim_C3_counterexample :
    (2 : Nat) ≤ 2 ∧ utilsGetUtf8StringLimit [97, 98] 2 2 = 1 ∧ (1 : Nat) ≠ 2 := by
  decide

/-- C3 (amended): for every nul-free string `s`, if the byte budget `n`
is strictly greater than the byte length of `s`, `utilsGetUtf8StringLimit`
returns the byte length and no truncation occurs.  When the budget
exactly equals the byte length the function instead returns the last
codepoint boundary strictly below it, so truncation can occur. -/
theorem claim_C3_amended (s : List Nat) (n : Nat) (hnul : ∀ b ∈ s, b ≠ 0)
    (hn : s.length < n) : utilsGetUtf8StringLimit s s.length n = s.length :=
  utilsGetUtf8StringLimit_no_trunc s n hnul hn

theorem claim_C3_amended_witness :
    (∀ b ∈ [97, 98], b ≠ 0) ∧ ([97, 98] : List Nat).length < 3 ∧
      utilsGetUtf8StringLimit [97, 98] 2 3 = 2 :=
  ⟨by decide, by decide, claim_C3_amended [97, 98] 3 (by decide) (by decide)⟩

/-- C4: for every string `s` and byte budget `n`, the value returned by
`utilsGetUtf8StringLimit s (length s) n` is at most `n`, is always a
codepoint boundary of `s` (it never falls strictly inside a multi-byte
sequence of the decode scan), and is 0 when no codepoint fits: when the
budget lies within the string and the first codepoint already reaches or
exceeds it. -/
theorem claim_C4 (s : List Nat) (n : Nat) :
    utilsGetUtf8StringLimit s s.length n ≤ n ∧
    splitsCodepoint s (utilsGetUtf8StringLimit s s.length n) = false ∧
    (n ≤ s.length → (∀ c u, decodeUtf8 s 0 = some (c, u) → n ≤ u) →
      utilsGetUtf8StringLimit s s.length n = 0) :=
  ⟨utilsGetUtf8StringLimit_le s s.length n, utilsGetUtf8StringLimit_boundary s n,
    fun h1 h2 => utilsGetUtf8StringLimit_zero s n h1 h2⟩

theorem claim_C4_witness :
    utilsGetUtf8StringLimit [195, 169] 2 1 ≤ 1 ∧
    splitsCodepoint [195, 169] (utilsGetUtf8StringLimit [195, 169] 2 1) = false ∧
    utilsGetUtf8StringLimit [195, 169] 2 1 = 0 :=
  ⟨(claim_C4 [195, 169] 1).1, (claim_C4 [195, 169] 1).2.1,
    (claim_C4 [195, 169] 1).2.2 (by decide)
      (fun c u h => by
        have he : decodeUtf8 [195, 169] 0 = some (233, 2) := by decide
        rw [he, Option.some.injEq, Prod.mk.injEq] at h
        omega)⟩

/-!
### The illegal character filter: output shape
-/

theorem decodeUtf8_cons_ascii {b0 : Nat} (r : List Nat) (h : b0 < 128) :
    decodeUtf8 (b0 :: r) 0 = some (b0, 1) := by
  unfold decodeUtf8 decodeBytes
  rw [if_pos (by simpa using h)]
  simp

theorem isIllegalCp_underscore : ∀ b, isIllegalCp 95 b = false := by decide

/-- Scanning for validity is invariant under translation past a
prefix. -/
theorem validFrom_shift (c t : List Nat) :
    ∀ fuel k, utf8ValidFrom (c ++ t) fuel (c.length + k) = utf8ValidFrom t fuel k := by
  intro fuel
  induction fuel with
  | zero => intro k; rfl
  | succ f ih =>
    intro k
    unfold utf8ValidFrom
    rw [decodeUtf8_shift, List.length_append]
    by_cases hk : k < t.length
    · rw [if_pos (by omega), if_pos hk]
      cases hdec : decodeUtf8 t k with
      | none => rfl
      | some cu =>
        obtain ⟨cd, u⟩ := cu
        simp only [hdec]
        rw [show c.length + k + u = c.length + (k + u) by omega]
        exact ih (k + u)
    · rw [if_neg (by omega), if_neg hk]

theorem validFrom_shift' (c t : List Nat) (fuel pos k : Nat) (hpos : pos = c.length + k) :
    utf8ValidFrom (c ++ t) fuel pos = utf8ValidFrom t fuel k := by
  subst hpos
  exact validFrom_shift c t fuel k

/-- The validity scan does not depend on the fuel, as long as the fuel
exceeds the number of bytes left. -/
theorem validFrom_congr (t : List Nat) :
    ∀ f g pos, t.length - pos < f → t.length - pos < g →
      utf8ValidFrom t f pos = utf8ValidFrom t g pos := by
  intro f
  induction f with
  | zero => intro g pos hf; omega
  | succ f ih =>
    intro g pos hf hg
    cases g with
    | zero => omega
    | succ g' =>
      unfold utf8ValidFrom
      by_cases hp : pos < t.length
      · rw [if_pos hp, if_pos hp]
        cases hdec : decodeUtf8 t pos with
        | none => rfl
        | some cu =>
          obtain ⟨c, u⟩ := cu
          simp only [hdec]
          have hu := decodeUtf8_units_pos hdec
          exact ih g' (pos + u) (by omega) (by omega)
      · rw [if_neg hp, if_neg hp]
    
theorem utf8Valid_nil : utf8Valid [] = true := by decide

/-- Every string the filter loop produces is valid UTF-8. -/
theorem repLoop_valid (s : List Nat) (b : Bool) :
    ∀ fuel pos, utf8Valid (repLoop s b fuel pos) = true := by
  intro fuel
  induction fuel with
  | zero => intro pos; exact utf8Valid_nil
  | succ f ih =>
    intro pos
    unfold repLoop
    by_cases hp : pos < s.length
    · rw [if_pos hp]
      cases hdec : decodeUtf8 s pos with
      | none => simp only [hdec]; exact utf8Valid_nil
      | some cu =>
        obtain ⟨c, u⟩ := cu
        simp only [hdec]
        have hu := decodeUtf8_units_pos hdec
        have hspan := decodeUtf8_bound hdec hp
        by_cases hill : isIllegalCp c b
        · rw [if_pos hill]
          unfold utf8Valid utf8ValidFrom
          rw [if_pos (by simp)]
          rw [List.singleton_append]
          simp only [decodeUtf8_cons_ascii _ (by omega : (95 : Nat) < 128)]
          rw [← List.singleton_append, validFrom_shift' [95] _ _ _ 0 (by simp)]
          rw [validFrom_congr _ _ ((repLoop s b f (pos + u)).length + 1) 0
            (by simp only [List.length_append, List.length_singleton]; omega) (by omega)]
          exact ih (pos + u)
        · rw [if_neg hill]
          have hclen : ((s.drop pos).take u).length = u := by
            simp only [List.length_take, List.length_drop]
            omega
          unfold utf8Valid utf8ValidFrom
          rw [if_pos (by simp [hclen]; omega)]
          simp only [decodeUtf8_chunk hdec hspan]
          rw [validFrom_shift' _ _ _ _ 0 (by omega)]
          rw [validFrom_congr _ _ ((repLoop s b f (pos + u)).length + 1) 0
            (by simp only [List.length_append, hclen]; omega) (by omega)]
          exact ih (pos + u)
    · rw [if_neg hp]
      exact utf8Valid_nil

/-!
### The illegal character filter: idempotence
-/

theorem repLoop_shift (c t : List Nat) (b : Bool) :
    ∀ fuel k, repLoop (c ++ t) b fuel (c.length + k) = repLoop t b fuel k := by
  intro fuel
  induction fuel with
  | zero => intro k; rfl
  | succ f ih =>
    intro k
    unfold repLoop
    rw [decodeUtf8_shift, List.length_append]
    by_cases hk : k < t.length
    · rw [if_pos (by omega), if_pos hk]
      cases hdec : decodeUtf8 t k with
      | none => rfl
      | some cu =>
        obtain ⟨cd, u⟩ := cu
        simp only [hdec]
        rw [List.drop_append]
        rw [show c.length + k + u = c.length + (k + u) by omega, ih (k + u)]
    · rw [if_neg (by omega), if_neg hk]

theorem repLoop_shift' (c t : List Nat) (b : Bool) (fuel pos k : Nat)
    (hpos : pos = c.length + k) : repLoop (c ++ t) b fuel pos = repLoop t b fuel k := by
  subst hpos
  exact repLoop_shift c t b fuel k

/-- The filter loop does not depend on the fuel, as long as the fuel
exceeds the number of bytes left. -/
theorem repLoop_congr (s : List Nat) (b : Bool) :
    ∀ f g pos, s.length - pos < f → s.length - pos < g →
      repLoop s b f pos = repLoop s b g pos := by
  intro f
  induction f with
  | zero => intro g pos hf; omega
  | succ f ih =>
    intro g pos hf hg
    cases g with
    | zero => omega
    | succ g' =>
      unfold repLoop
      by_cases hp : pos < s.length
      · rw [if_pos hp, if_pos hp]
        cases hdec : decodeUtf8 s pos with
        | none => rfl
        | some cu =>
          obtain ⟨c, u⟩ := cu
          simp only [hdec]
          have hu := decodeUtf8_units_pos hdec
          rw [ih g' (pos + u) (by omega) (by omega)]
      · rw [if_neg hp, if_neg hp]

theorem take_append_of_length {α : Type} {c : List α} {u : Nat} (r : List α)
    (h : c.length = u) : (c ++ r).take u = c := by
  subst h
  exact List.take_left c r

theorem repLoop_nil (b : Bool) (F : Nat) : repLoop [] b F 0 = [] := by
  cases F with
  | zero => rfl
  | succ F' =>
    unfold repLoop
    rw [if_neg (by simp)]

theorem repLoop_succ (s : List Nat) (b : Bool) (f pos : Nat) :
    repLoop s b (f + 1) pos =
      if pos < s.length then
        match decodeUtf8 s pos with
        | none => []
        | some (code, units) =>
          (if isIllegalCp code b then [95] else (s.drop pos).take units) ++
            repLoop s b f (pos + units)
      else [] := rfl

/-- Applying the filter loop to its own output changes nothing: every
chunk it emits decodes to a legal codepoint. -/
theorem repLoop_self (s : List Nat) (b : Bool) :
    ∀ fuel pos F, (repLoop s b fuel pos).length < F →
      repLoop (repLoop s b fuel pos) b F 0 = repLoop s b fuel pos := by
  intro fuel
  induction fuel with
  | zero => intro pos F hF; exact repLoop_nil b F
  | succ f ih =>
    intro pos F hF
    by_cases hp : pos < s.length
    · cases hdec : decodeUtf8 s pos with
      | none =>
        have hout : repLoop s b (f + 1) pos = [] := by
          rw [repLoop_succ, if_pos hp]
          simp only [hdec]
        rw [hout]
        exact repLoop_nil b F
      | some cu =>
        obtain ⟨c, u⟩ := cu
        have hu := decodeUtf8_units_pos hdec
        have hspan := decodeUtf8_bound hdec hp
        by_cases hill : isIllegalCp c b
        · have hout : repLoop s b (f + 1) pos = [95] ++ repLoop s b f (pos + u) := by
            rw [repLoop_succ, if_pos hp]
            simp only [hdec]
            rw [if_pos hill]
          rw [hout] at hF ⊢
          cases F with
          | zero => omega
          | succ F' =>
            rw [List.singleton_append] at hF ⊢
            rw [repLoop_succ, if_pos (by simp)]
            simp only [decodeUtf8_cons_ascii _ (by omega : (95 : Nat) < 128)]
            rw [isIllegalCp_underscore b, if_neg (by simp)]
            rw [List.drop_zero, show ((95 :: repLoop s b f (pos + u)).take 1) = [95] from rfl]
            have e2 : repLoop (95 :: repLoop s b f (pos + u)) b F' (0 + 1) =
                repLoop (repLoop s b f (pos + u)) b F' 0 :=
              repLoop_shift' [95] _ b F' (0 + 1) 0 (by simp)
            rw [e2,
              repLoop_congr _ b F' ((repLoop s b f (pos + u)).length + 1) 0
                (by simp only [List.length_cons] at hF ⊢; omega) (by omega),
              ih (pos + u) ((repLoop s b f (pos + u)).length + 1) (by omega)]
            rfl
        · have hclen : ((s.drop pos).take u).length = u := by
            simp only [List.length_take, List.length_drop]
            omega
          have hout : repLoop s b (f + 1) pos =
              (s.drop pos).take u ++ repLoop s b f (pos + u) := by
            rw [repLoop_succ, if_pos hp]
            simp only [hdec]
            rw [if_neg hill]
          rw [hout] at hF ⊢
          cases F with
          | zero => omega
          | succ F' =>
            rw [repLoop_succ, if_pos (by simp only [List.length_append, hclen]; omega)]
            simp only [decodeUtf8_chunk hdec hspan]
            rw [if_neg hill]
            rw [List.drop_zero, take_append_of_length _ hclen]
            rw [repLoop_shift' _ _ b F' (0 + u) 0 (by rw [hclen]; omega),
              repLoop_congr _ b F' ((repLoop s b f (pos + u)).length + 1) 0
                (by simp only [List.length_append] at hF; omega) (by omega),
              ih (pos + u) ((repLoop s b f (pos + u)).length + 1) (by omega)]
    · have hout : repLoop s b (f + 1) pos = [] := by
        rw [repLoop_succ, if_neg hp]
      rw [hout]
      exact repLoop_nil b F

/-- C9: for every string with no UTF-8 decode errors and every
`ascii_only` flag, `utilsReplaceIllegalCharacters` is idempotent:
applying it to its own output changes nothing.  (The proof does not even
need the decode hypothesis: the output of the filter always rescans to
itself, because every emitted chunk decodes to a codepoint the filter
considers legal.) -/
theorem claim_C9 (s : List Nat) (b : Bool) (_hvalid : utf8Valid s = true) :
    utilsReplaceIllegalCharacters (utilsReplaceIllegalCharacters s b) b =
      utilsReplaceIllegalCharacters s b := by
  unfold utilsReplaceIllegalCharacters
  exact repLoop_self s b (s.length + 1) 0 _ (Nat.lt_succ_self _)

theorem claim_C9_witness :
    utf8Valid [104, 195, 169, 47, 98] = true ∧
    utilsReplaceIllegalCharacters
        (utilsReplaceIllegalCharacters [104, 195, 169, 47, 98] false) false =
      utilsReplaceIllegalCharacters [104, 195, 169, 47, 98] false :=
  ⟨by decide, claim_C9 [104, 195, 169, 47, 98] false (by decide)⟩

/-- C1 as stated fails on `utilsGeneratePath`: the single-byte filename
`[0xFF]` is malformed UTF-8, yet path generation succeeds and returns it
unchanged, because an element shorter than the byte budget is passed
through without any decoding. -/
theorem claim_C1_counterexample :
    utilsGeneratePath none (some [255]) none = .ok [255] ∧ utf8Valid [255] = false := by
  decide

/-- C1 (amended): every output of `utilsReplaceIllegalCharacters` is
valid UTF-8 and never cuts inside a multi-byte sequence — on a decode
failure mid-string the filter truncates exactly there and passes no
invalid bytes through.  A successful `utilsGeneratePath` result, by
contrast, need not be valid UTF-8: malformed bytes inside a component
shorter than the per-component byte budget are passed through
unchanged. -/
theorem claim_C1_amended :
    (∀ s b, utf8Valid (utilsReplaceIllegalCharacters s b) = true) ∧
    (utilsGeneratePath none (some [97, 97, 255]) none = .ok [97, 97, 255] ∧
      utf8Valid [97, 97, 255] = false) :=
  ⟨fun s b => repLoop_valid s b (s.length + 1) 0, by decide⟩

/-!
### Path generation: argument handling and scenarios
-/

/-- C10: an empty prefix or extension behaves exactly like an absent
one, and a missing or empty filename is rejected as invalid arguments
with no path produced. -/
theorem claim_C10 :
    (∀ fn, utilsGeneratePath (some []) fn (some []) = utilsGeneratePath none fn none) ∧
    (∀ pre ext, utilsGeneratePath pre none ext = .error .invalidArguments ∧
      utilsGeneratePath pre (some []) ext = .error .invalidArguments) := by
  constructor
  · intro fn
    cases fn with
    | none => rfl
    | some f => rfl
  · intro pre ext
    exact ⟨rfl, rfl⟩

/-- C7 as stated fails: the path "a\xFF" contains a malformed UTF-8
sequence, yet `utilsGeneratePath` succeeds and passes the malformed
bytes through (an element shorter than the byte budget is returned by
`utilsGetUtf8StringLimit` without decoding anything). -/
theorem claim_C7_counterexample :
    utf8Valid [97, 255] = false ∧
    utilsGeneratePath none (some [97, 255]) none = .ok [97, 255] := by
  decide

set_option maxRecDepth 10000 in
/-- C7 (amended): a malformed byte sequence is never a hard error for
`utilsGeneratePath`.  In a component shorter than the byte budget it is
passed through unchanged (see the counterexample); in a longer component
the element is silently truncated at the decode-failure point, as here:
a 311-byte filename with a malformed byte at offset 10 yields the first
10 bytes. -/
theorem claim_C7_amended :
    utilsGeneratePath none
        (some (List.replicate 10 97 ++ [255] ++ List.replicate 300 97)) none =
      .ok (List.replicate 10 97) := by
  decide

set_option maxRecDepth 10000 in
/-- C2 as stated fails: the `"sd:/out"` + 300 × `x` + `".txt"` scenario
succeeds, but the last component of the result is 254 bytes long, not
255: `utilsGetUtf8StringLimit` keeps only codepoints that end strictly
below the 255-byte budget, so the boundary is 254, and the 4-byte
extension is spliced in to end exactly there. -/
theorem claim_C2_counterexample :
    utilsGeneratePath (some [115, 100, 58, 47, 111, 117, 116])
        (some (List.replicate 300 120)) (some [46, 116, 120, 116]) =
      .ok ([115, 100, 58, 47, 111, 117, 116, 47] ++ List.replicate 250 120 ++
        [46, 116, 120, 116]) ∧
    (lastComponent ([115, 100, 58, 47, 111, 117, 116, 47] ++ List.replicate 250 120 ++
        [46, 116, 120, 116])).length ≠ 255 := by
  decide

set_option maxRecDepth 10000 in
/-- C2 (amended): `utilsGeneratePath "sd:/out" ("x"*300) ".txt"`
succeeds; the last component of the result is exactly 254 bytes: the
truncated run of 250 `x` bytes followed by `".txt"`. -/
theorem claim_C2_amended :
    utilsGeneratePath (some [115, 100, 58, 47, 111, 117, 116])
        (some (List.replicate 300 120)) (some [46, 116, 120, 116]) =
      .ok ([115, 100, 58, 47, 111, 117, 116, 47] ++ List.replicate 250 120 ++
        [46, 116, 120, 116]) ∧
    lastComponent ([115, 100, 58, 47, 111, 117, 116, 47] ++ List.replicate 250 120 ++
        [46, 116, 120, 116]) = List.replicate 250 120 ++ [46, 116, 120, 116] ∧
    (List.replicate 250 120 ++ [46, 116, 120, 116]).length = 254 := by
  decide

/-- One-step unfolding of `genLoop` (the loop body at lines 804-848). -/
theorem genLoop_succ (use_ext : Bool) (ext_len fuel : Nat) (buf : List Nat) (i : Nat) :
    genLoop use_ext ext_len (fuel + 1) buf i =
      match findSep (buf.drop i) with
      | some d =>
        let lcp := utilsGetUtf8StringLimit (buf.drop i) d NT_MAX_FILENAME_LENGTH
        if lcp < d then
          genLoop use_ext ext_len fuel (buf.take (i + lcp) ++ buf.drop (i + d)) (i + lcp + 1)
        else
          genLoop use_ext ext_len fuel buf (i + d + 1)
      | none =>
        let esize := buf.length - i
        let lcp := utilsGetUtf8StringLimit (buf.drop i) esize NT_MAX_FILENAME_LENGTH
        if lcp < esize then
          if use_ext then
            if ext_len ≥ lcp then .error .extensionTooLong
            else .ok (buf.take (i + lcp - ext_len) ++ buf.drop (buf.length - ext_len), true)
          else .ok (buf.take (i + lcp), true)
        else .ok (buf, false) := rfl

/-- C8: when the final path element (no separator follows position `i`)
must be truncated and an extension is in use, `genLoop` fails with
`ExtensionTooLong` exactly when the extension length is at least the
truncated boundary; no path accompanies the error (the `Except.error`
result carries no buffer). -/
theorem claim_C8 (ext_len : Nat) (buf : List Nat) (i : Nat)
    (hsep : findSep (buf.drop i) = none)
    (htr : utilsGetUtf8StringLimit (buf.drop i) (buf.length - i) NT_MAX_FILENAME_LENGTH <
      buf.length - i) :
    genLoop true ext_len (buf.length + 1) buf i = .error .extensionTooLong ↔
      utilsGetUtf8StringLimit (buf.drop i) (buf.length - i) NT_MAX_FILENAME_LENGTH ≤ ext_len := by
  rw [genLoop_succ]
  simp only [hsep]
  rw [if_pos htr]
  by_cases hext : utilsGetUtf8StringLimit (buf.drop i) (buf.length - i)
      NT_MAX_FILENAME_LENGTH ≤ ext_len
  · rw [if_pos (by simp), if_pos (by omega)]
    simp [hext]
  · rw [if_pos (by simp), if_neg (by omega)]
    constructor
    · intro h
      cases h
    · intro h
      omega

set_option maxRecDepth 10000 in
theorem claim_C8_witness :
    (findSep ((List.replicate 300 97).drop 0) = none ∧
      utilsGetUtf8StringLimit ((List.replicate 300 97).drop 0)
          ((List.replicate 300 97).length - 0) NT_MAX_FILENAME_LENGTH <
        (List.replicate 300 97).length - 0) ∧
    genLoop true 300 ((List.replicate 300 97).length + 1) (List.replicate 300 97) 0 =
      .error .extensionTooLong :=
  ⟨⟨by decide, by decide⟩,
    (claim_C8 300 (List.replicate 300 97) 0 (by decide) (by decide)).mpr (by decide)⟩

/-!
### Path generation: separator bookkeeping
-/

theorem findSep_some {l : List Nat} {d : Nat} (h : findSep l = some d) :
    d < l.length ∧ l.getD d 0 = 47 ∧ ∀ k, k < d → l.getD k 0 ≠ 47 := by
  induction l generalizing d with
  | nil => cases h
  | cons b rest ih =>
    unfold findSep at h
    by_cases hb : b = 47
    · rw [if_pos hb] at h
      cases h
      refine ⟨by simp, by simpa using hb, ?_⟩
      intro k hk
      omega
    · rw [if_neg hb] at h
      cases hfs : findSep rest with
      | none => rw [hfs] at h; cases h
      | some d' =>
        rw [hfs] at h
        simp only [Option.map_some', Option.some.injEq] at h
        subst h
        obtain ⟨hd1, hd2, hd3⟩ := ih hfs
        refine ⟨by simp; omega, by simpa using hd2, ?_⟩
        intro k hk
        cases k with
        | zero => simpa using hb
        | succ k' =>
          have := hd3 k' (by omega)
          simpa using this

theorem findSep_none {l : List Nat} (h : findSep l = none) : (47 : Nat) ∉ l := by
  induction l with
  | nil => simp
  | cons b rest ih =>
    unfold findSep at h
    by_cases hb : b = 47
    · rw [if_pos hb] at h
      cases h
    · rw [if_neg hb] at h
      have hr : findSep rest = none := by
        cases hfs : findSep rest with
        | none => rfl
        | some d => rw [hfs] at h; cases h
      simp only [List.mem_cons]
      rintro (hc | hc)
      · exact hb hc.symm
      · exact ih hr hc

theorem not_mem_of_getD {l : List Nat} {a : Nat} (_ha : a ≠ 0)
    (h : ∀ k, k < l.length → l.getD k 0 ≠ a) : a ∉ l := by
  intro hmem
  obtain ⟨k, hk, he⟩ := List.mem_iff_getElem.mp hmem
  exact h k hk (by rw [List.getD_eq_getElem _ _ hk]; exact he ▸ rfl)

/-- The separator-free lead piece cut off before a found separator. -/
theorem findSep_take_not_mem {l : List Nat} {d : Nat} (h : findSep l = some d) :
    (47 : Nat) ∉ l.take d := by
  obtain ⟨hd1, _, hd3⟩ := findSep_some h
  apply not_mem_of_getD (by omega)
  intro k hk
  simp only [List.length_take] at hk
  have hkd : k < d := by omega
  have hkl : k < l.length := by omega
  rw [List.getD_eq_getElem _ _ (by simp [List.length_take]; omega)]
  rw [List.getElem_take]
  rw [← List.getD_eq_getElem _ _ hkl]
  exact hd3 k hkd

theorem componentsOf_ne_nil (l : List Nat) : componentsOf l ≠ [] := by
  induction l with
  | nil => simp [componentsOf]
  | cons b rest ih =>
    unfold componentsOf
    by_cases hb : b = 47
    · rw [if_pos hb]
      simp
    · rw [if_neg hb]
      cases h : componentsOf rest with
      | nil => exact absurd h ih
      | cons c cs => simp

/-- A separator-free byte string is its own single component. -/
theorem componentsOf_sepFree {l : List Nat} (h : (47 : Nat) ∉ l) :
    componentsOf l = [l] := by
  induction l with
  | nil => rfl
  | cons b rest ih =>
    simp only [List.mem_cons] at h
    push_neg at h
    unfold componentsOf
    rw [if_neg (fun hb => h.1 hb.symm), ih h.2]

theorem componentsOf_cons (b : Nat) (rest : List Nat) :
    componentsOf (b :: rest) =
      if b = 47 then [] :: componentsOf rest
      else
        match componentsOf rest with
        | c :: cs => (b :: c) :: cs
        | [] => [[b]] := rfl

theorem componentsOf_append_sep {c : List Nat} (t : List Nat) (hc : (47 : Nat) ∉ c) :
    componentsOf (c ++ 47 :: t) = c :: componentsOf t := by
  induction c with
  | nil =>
    simp only [List.nil_append]
    rw [componentsOf_cons, if_pos rfl]
  | cons b rest ih =>
    simp only [List.mem_cons] at hc
    push_neg at hc
    rw [List.cons_append, componentsOf_cons, if_neg (fun hb => hc.1 hb.symm), ih hc.2]

theorem lastComponent_append_sep {c : List Nat} (t : List Nat) (hc : (47 : Nat) ∉ c) :
    lastComponent (c ++ 47 :: t) = lastComponent t := by
  unfold lastComponent
  rw [componentsOf_append_sep t hc]
  cases h : componentsOf t with
  | nil => exact absurd h (componentsOf_ne_nil t)
  | cons x xs =>
    rw [List.getLastD_eq_getLast?, List.getLastD_eq_getLast?]
    congr 1

/-- For an element smaller than the budget the limit is the element size
itself (early return) or 0 (first-byte-nul / empty checks). -/
theorem utilsGetUtf8StringLimit_small (s : List Nat) (m : Nat)
    (hm : m < NT_MAX_FILENAME_LENGTH) :
    utilsGetUtf8StringLimit s m NT_MAX_FILENAME_LENGTH = 0 ∨
      utilsGetUtf8StringLimit s m NT_MAX_FILENAME_LENGTH = m := by
  unfold utilsGetUtf8StringLimit
  split_ifs with h1
  · left; rfl
  · right; rfl

/-- A truncating limit call returns at most 254 bytes. -/
theorem utilsGetUtf8StringLimit_le_254 (s : List Nat) (m : Nat)
    (h : utilsGetUtf8StringLimit s m NT_MAX_FILENAME_LENGTH < m) :
    utilsGetUtf8StringLimit s m NT_MAX_FILENAME_LENGTH ≤ 254 := by
  have hnt : NT_MAX_FILENAME_LENGTH = 255 := rfl
  unfold utilsGetUtf8StringLimit at h ⊢
  by_cases h1 : s.getD 0 0 = 0 ∨ m = 0 ∨ NT_MAX_FILENAME_LENGTH = 0
  · rw [if_pos h1] at h ⊢
    omega
  · rw [if_neg h1] at h ⊢
    by_cases h2 : m < NT_MAX_FILENAME_LENGTH
    · rw [if_pos h2] at h ⊢
      omega
    · rw [if_neg h2] at h ⊢
      have hlt := @limitLoop_lt s m NT_MAX_FILENAME_LENGTH (m + 1) 0 0 (by omega)
      omega

/-- A non-truncating limit call means the element fits in the budget. -/
theorem utilsGetUtf8StringLimit_ge_small (s : List Nat) (m : Nat)
    (h : ¬utilsGetUtf8StringLimit s m NT_MAX_FILENAME_LENGTH < m) : m ≤ 254 := by
  have hnt : NT_MAX_FILENAME_LENGTH = 255 := rfl
  unfold utilsGetUtf8StringLimit at h
  by_cases h1 : s.getD 0 0 = 0 ∨ m = 0 ∨ NT_MAX_FILENAME_LENGTH = 0
  · rw [if_pos h1] at h
    omega
  · rw [if_neg h1] at h
    by_cases h2 : m < NT_MAX_FILENAME_LENGTH
    · omega
    · rw [if_neg h2] at h
      have hlt := @limitLoop_lt s m NT_MAX_FILENAME_LENGTH (m + 1) 0 0 (by omega)
      omega

/-- Decomposing a buffer at a found separator. -/
theorem drop_decomp_sep {buf : List Nat} {i d : Nat}
    (hsep : findSep (buf.drop i) = some d) :
    i + d < buf.length ∧
      buf.drop i = (buf.drop i).take d ++ 47 :: buf.drop (i + d + 1) := by
  obtain ⟨hd1, hd2, _⟩ := findSep_some hsep
  rw [List.length_drop] at hd1
  have hlen : i + d < buf.length := by omega
  have hb : buf[i + d] = 47 := by
    rw [List.getD_eq_getElem _ _ (by rw [List.length_drop]; omega)] at hd2
    rw [List.getElem_drop] at hd2
    exact hd2
  refine ⟨hlen, ?_⟩
  conv_lhs => rw [← List.take_append_drop d (buf.drop i)]
  congr 1
  rw [List.drop_drop, List.drop_eq_getElem_cons hlen, hb]

theorem componentsOf_eq_singleton {l c : List Nat} (h : componentsOf l = [c]) : l = c := by
  induction l generalizing c with
  | nil =>
    unfold componentsOf at h
    simpa using h.symm
  | cons b rest ih =>
    rw [componentsOf_cons] at h
    by_cases hb : b = 47
    · rw [if_pos hb] at h
      simp only [List.cons.injEq] at h
      exact absurd h.2 (componentsOf_ne_nil rest)
    · rw [if_neg hb] at h
      cases hr : componentsOf rest with
      | nil => exact absurd hr (componentsOf_ne_nil rest)
      | cons c' cs =>
        rw [hr] at h
        simp only [List.cons.injEq] at h
        obtain ⟨hc, hcs⟩ := h
        subst hcs
        rw [ih hr, hc]

theorem lastComponent_cons_sep (t : List Nat) : lastComponent (47 :: t) = lastComponent t := by
  have := @lastComponent_append_sep [] t (by simp)
  simpa using this

/-- The last component is a suffix of the string. -/
theorem lastComponent_suffix (l : List Nat) : ∃ k, lastComponent l = l.drop k := by
  induction l with
  | nil => exact ⟨0, rfl⟩
  | cons b rest ih =>
    by_cases hb : b = 47
    · subst hb
      obtain ⟨k, hk⟩ := ih
      exact ⟨k + 1, by rw [lastComponent_cons_sep, hk]; rfl⟩
    · cases hr : componentsOf rest with
      | nil => exact absurd hr (componentsOf_ne_nil rest)
      | cons c cs =>
        cases cs with
        | nil =>
          refine ⟨0, ?_⟩
          unfold lastComponent
          rw [componentsOf_cons, if_neg hb, hr]
          have : rest = c := componentsOf_eq_singleton hr
          subst this
          rfl
        | cons c2 cs2 =>
          obtain ⟨k, hk⟩ := ih
          refine ⟨k + 1, ?_⟩
          have he : lastComponent (b :: rest) = lastComponent rest := by
            unfold lastComponent
            rw [componentsOf_cons, if_neg hb, hr]
            rw [List.getLastD_eq_getLast?, List.getLastD_eq_getLast?]
            congr 1
          rw [he, hk]
          rfl

theorem lastComponent_length_le (l : List Nat) : (lastComponent l).length ≤ l.length := by
  obtain ⟨k, hk⟩ := lastComponent_suffix l
  rw [hk, List.length_drop]
  omega

/-- Dropping past a truncated element of the surgered buffer lands just
after the (shifted) separator: the tail is untouched. -/
theorem surgery_drop {buf : List Nat} {i lcp d : Nat} (hld : lcp < d) (hdl : i + d < buf.length) :
    (buf.take (i + lcp) ++ buf.drop (i + d)).drop (i + lcp + 1) = buf.drop (i + d + 1) := by
  have hlen : (buf.take (i + lcp)).length = i + lcp := by
    rw [List.length_take]
    omega
  rw [show i + lcp + 1 = (buf.take (i + lcp)).length + 1 by omega]
  rw [List.drop_append, List.drop_drop]

/-- If the final element (the part after the last separator) is at most
254 bytes, the final element is never truncated: with an extension in
use the loop can then only end without the truncation flag (or fail). -/
theorem genLoop_no_final_trunc (ext_len : Nat) :
    ∀ fuel buf i out,
      (lastComponent (buf.drop i)).length ≤ 254 →
      genLoop true ext_len fuel buf i = .ok (out, true) → False := by
  intro fuel
  induction fuel with
  | zero =>
    intro buf i out _ h
    cases h
  | succ f ih =>
    intro buf i out hlast h
    rw [genLoop_succ] at h
    cases hsep : findSep (buf.drop i) with
    | some d =>
      simp only [hsep] at h
      obtain ⟨hdl, hdecomp⟩ := drop_decomp_sep hsep
      have hfree := findSep_take_not_mem hsep
      have hlast' : (lastComponent (buf.drop (i + d + 1))).length ≤ 254 := by
        rw [hdecomp, lastComponent_append_sep _ hfree] at hlast
        exact hlast
      split_ifs at h with hlt
      · refine ih _ _ _ ?_ h
        rw [surgery_drop hlt hdl]
        exact hlast'
      · exact ih _ _ _ hlast' h
    | none =>
      simp only [hsep] at h
      have hfree := findSep_none hsep
      have hsingle : lastComponent (buf.drop i) = buf.drop i := by
        unfold lastComponent
        rw [componentsOf_sepFree hfree]
        rfl
      rw [hsingle, List.length_drop] at hlast
      split_ifs at h with hlt hge
      · rcases utilsGetUtf8StringLimit_small (buf.drop i) (buf.length - i)
            (by have h255 : NT_MAX_FILENAME_LENGTH = 255 := rfl; omega) with h0 | hm
        · rw [h0] at hge
          omega
        · omega
      · rw [Except.ok.injEq, Prod.mk.injEq] at h
        exact Bool.false_ne_true h.2

/-- A run that ends with the final element truncated and the extension
spliced in implies the extension was shorter than the 254-byte-bounded
boundary. -/
theorem genLoop_ok_true_ext_le (ext_len : Nat) :
    ∀ fuel buf i out, genLoop true ext_len fuel buf i = .ok (out, true) → ext_len ≤ 253 := by
  intro fuel
  induction fuel with
  | zero =>
    intro buf i out h
    cases h
  | succ f ih =>
    intro buf i out h
    rw [genLoop_succ] at h
    cases hsep : findSep (buf.drop i) with
    | some d =>
      simp only [hsep] at h
      split_ifs at h with hlt
      · exact ih _ _ _ h
      · exact ih _ _ _ h
    | none =>
      simp only [hsep] at h
      split_ifs at h with hlt hge
      · have := utilsGetUtf8StringLimit_le_254 (buf.drop i) (buf.length - i) hlt
        omega
      · rw [Except.ok.injEq, Prod.mk.injEq] at h
        exact absurd h.2 Bool.false_ne_true

theorem suffix_append_left {l t s : List Nat} (h : l <:+ t) : l <:+ s ++ t := by
  obtain ⟨p, hp⟩ := h
  exact ⟨s ++ p, by rw [List.append_assoc, hp]⟩

/-- Extension preservation through the truncation loop: if the loop
succeeds with the final element truncated (so the extension was spliced
in), and the extension is a suffix of the buffer, it is a suffix of the
result.  A non-final truncation that would eat into the extension's
byte range can only happen when a separator sits inside that range, and
then the final element is too short ever to be truncated. -/
theorem genLoop_ext_suffix (ext : List Nat) :
    ∀ fuel buf i out, ext <:+ buf →
      genLoop true ext.length fuel buf i = .ok (out, true) → ext <:+ out := by
  intro fuel
  induction fuel with
  | zero =>
    intro buf i out _ h
    cases h
  | succ f ih =>
    intro buf i out hsuf h
    have hel : ext.length ≤ 253 := genLoop_ok_true_ext_le ext.length (f + 1) buf i out h
    rw [genLoop_succ] at h
    cases hsep : findSep (buf.drop i) with
    | some d =>
      simp only [hsep] at h
      obtain ⟨hdl, hdecomp⟩ := drop_decomp_sep hsep
      split_ifs at h with hlt
      · by_cases hcase : i + d ≤ buf.length - ext.length
        · refine ih _ _ _ ?_ h
          obtain ⟨p, hp⟩ := hsuf
          have hplen : p.length + ext.length = buf.length := by
            rw [← hp, List.length_append]
          refine ⟨buf.take (i + utilsGetUtf8StringLimit (buf.drop i) d NT_MAX_FILENAME_LENGTH) ++
            p.drop (i + d), ?_⟩
          rw [List.append_assoc]
          congr 1
          rw [← hp, List.drop_append_of_le_length (by omega)]
        · exfalso
          refine genLoop_no_final_trunc ext.length f _ _ out ?_ h
          rw [surgery_drop hlt hdl]
          have h1 := lastComponent_length_le (buf.drop (i + d + 1))
          rw [List.length_drop] at h1
          omega
      · exact ih _ _ _ hsuf h
    | none =>
      simp only [hsep] at h
      split_ifs at h with hlt hge
      · rw [Except.ok.injEq, Prod.mk.injEq] at h
        obtain ⟨hout, _⟩ := h
        obtain ⟨p, hp⟩ := hsuf
        have hplen : p.length + ext.length = buf.length := by
          rw [← hp, List.length_append]
        have hdropext : buf.drop (buf.length - ext.length) = ext := by
          rw [← hp]
          rw [show (p ++ ext).length - ext.length = p.length by
            rw [List.length_append]; omega]
          exact List.drop_left p ext
        rw [← hout]
        exact ⟨_, by rw [hdropext]⟩
      · rw [Except.ok.injEq, Prod.mk.injEq] at h
        exact absurd h.2 Bool.false_ne_true

/-- C5: for every prefix, filename, and non-empty extension, if
`utilsGeneratePath` succeeds with its last path element truncated (the
instrumented flag of `utilsGeneratePathT`), the returned path ends in
exactly the supplied extension, byte for byte. -/
theorem claim_C5 (pre : Option (List Nat)) (fn ext out : List Nat) (hext : ext ≠ [])
    (h : utilsGeneratePathT pre (some fn) (some ext) = .ok (out, true)) :
    ext <:+ out := by
  simp only [utilsGeneratePathT, Option.getD_some] at h
  by_cases hfn : fn = []
  · rw [if_pos hfn] at h
    cases h
  · rw [if_neg hfn, decide_eq_true hext] at h
    split at h
    · cases h
    · rename_i buf t heq
      split_ifs at h with hfs
      rw [Except.ok.injEq, Prod.mk.injEq] at h
      obtain ⟨hbuf, ht⟩ := h
      subst hbuf
      subst ht
      split at heq
      · exact genLoop_ext_suffix ext _ _ _ _ (List.suffix_append _ ext) heq
      · exact genLoop_ext_suffix ext _ _ _ _ (List.suffix_append _ ext) heq

set_option maxRecDepth 10000 in
theorem claim_C5_witness :
    (([46, 116] : List Nat) ≠ [] ∧
      utilsGeneratePathT none (some (List.replicate 300 97)) (some [46, 116]) =
        .ok (List.replicate 252 97 ++ [46, 116], true)) ∧
    [46, 116] <:+ (List.replicate 252 97 ++ [46, 116]) :=
  ⟨⟨by decide, by decide⟩,
    claim_C5 none (List.replicate 300 97) [46, 116] (List.replicate 252 97 ++ [46, 116])
      (by decide) (by decide)⟩

theorem drop_sep_cons {buf : List Nat} {i d : Nat} (hsep : findSep (buf.drop i) = some d) :
    buf.drop (i + d) = 47 :: buf.drop (i + d + 1) := by
  obtain ⟨hd1, hd2, _⟩ := findSep_some hsep
  rw [List.length_drop] at hd1
  have hlen : i + d < buf.length := by omega
  have hb : buf[i + d] = 47 := by
    rw [List.getD_eq_getElem _ _ (by rw [List.length_drop]; omega)] at hd2
    rw [List.getElem_drop] at hd2
    exact hd2
  rw [List.drop_eq_getElem_cons hlen, hb]

theorem findSep_decomp {l : List Nat} {d : Nat} (h : findSep l = some d) :
    d < l.length ∧ l = l.take d ++ 47 :: l.drop (d + 1) := by
  have h0 : findSep (l.drop 0) = some d := by rw [List.drop_zero]; exact h
  obtain ⟨h1, h2⟩ := drop_decomp_sep h0
  rw [List.drop_zero] at h2
  simp only [Nat.zero_add] at h1 h2
  exact ⟨h1, h2⟩

theorem take_prefix_mono {out buf2 : List Nat} {i i2 : Nat} (hii : i ≤ i2)
    (h : out.take i2 = buf2.take i2) : out.take i = buf2.take i := by
  have h1 : out.take i = (out.take i2).take i := by
    rw [List.take_take, Nat.min_eq_left hii]
  have h2 : buf2.take i = (buf2.take i2).take i := by
    rw [List.take_take, Nat.min_eq_left hii]
  rw [h1, h2, h]

theorem drop_decomp_of_take_eq {out buf2 : List Nat} {i i2 : Nat} (hii : i ≤ i2)
    (hi2len : i2 ≤ buf2.length) (h : out.take i2 = buf2.take i2) :
    out.drop i = (buf2.take i2).drop i ++ out.drop i2 := by
  conv_lhs => rw [← List.take_append_drop i2 out]
  rw [List.drop_append_of_le_length (by rw [h, List.length_take]; omega), h]

theorem surgery_take {buf : List Nat} {i lcp d : Nat}
    (hsep : findSep (buf.drop i) = some d) (hlen : i + lcp ≤ buf.length) :
    (buf.take (i + lcp) ++ buf.drop (i + d)).take (i + lcp + 1) =
      buf.take (i + lcp) ++ [47] := by
  have htklen : (buf.take (i + lcp)).length = i + lcp := by
    rw [List.length_take]
    omega
  rw [show i + lcp + 1 = (buf.take (i + lcp)).length + 1 by omega]
  rw [List.take_append, drop_sep_cons hsep]
  rfl

theorem genLoop_components (use_ext : Bool) (ext_len : Nat) :
    ∀ fuel buf i out t, i ≤ buf.length →
      genLoop use_ext ext_len fuel buf i = .ok (out, t) →
      out.take i = buf.take i ∧ ∀ c ∈ componentsOf (out.drop i), c.length ≤ 254 := by
  intro fuel
  induction fuel with
  | zero =>
    intro buf i out t _ h
    cases h
  | succ f ih =>
    intro buf i out t hi h
    rw [genLoop_succ] at h
    cases hsep : findSep (buf.drop i) with
    | some d =>
      simp only [hsep] at h
      obtain ⟨hdl, hdecomp⟩ := drop_decomp_sep hsep
      have hfree := findSep_take_not_mem hsep
      have hdlen : d < buf.length - i := by
        have := (findSep_some hsep).1
        rwa [List.length_drop] at this
      split_ifs at h with hlt
      · set lcp := utilsGetUtf8StringLimit (buf.drop i) d NT_MAX_FILENAME_LENGTH with hlcpdef
        have hlcp254 : lcp ≤ 254 := utilsGetUtf8StringLimit_le_254 _ _ hlt
        have hlb : (buf.take (i + lcp) ++ buf.drop (i + d)).length =
            i + lcp + (buf.length - (i + d)) := by
          rw [List.length_append, List.length_take, List.length_drop]
          omega
        obtain ⟨ha, hb⟩ := ih _ _ _ _ (by omega) h
        have hchunkfree : (47 : Nat) ∉ (buf.drop i).take lcp := by
          intro hmem
          apply hfree
          rw [show (buf.drop i).take lcp = ((buf.drop i).take d).take lcp by
            rw [List.take_take, Nat.min_eq_left (by omega)]] at hmem
          exact List.take_subset _ _ hmem
        refine ⟨?_, ?_⟩
        · rw [take_prefix_mono (by omega : i ≤ i + lcp + 1) ha]
          rw [List.take_append_of_le_length (by rw [List.length_take]; omega)]
          rw [List.take_take, Nat.min_eq_left (by omega)]
        · have hdrop := drop_decomp_of_take_eq (by omega : i ≤ i + lcp + 1) (by omega) ha
          rw [surgery_take hsep (by omega)] at hdrop
          rw [List.drop_append_of_le_length (by rw [List.length_take]; omega)] at hdrop
          rw [← List.take_drop] at hdrop
          rw [List.append_assoc, List.singleton_append] at hdrop
          rw [hdrop, componentsOf_append_sep _ hchunkfree]
          intro c hc
          rcases List.mem_cons.mp hc with hc | hc
          · subst hc
            rw [List.length_take, List.length_drop]
            omega
          · exact hb c hc
      · obtain ⟨ha, hb⟩ := ih _ _ _ _ (by omega : i + d + 1 ≤ buf.length) h
        have hAlen : ((buf.drop i).take d).length = d := by
          rw [List.length_take, List.length_drop]
          omega
        have hd254 : d ≤ 254 := utilsGetUtf8StringLimit_ge_small _ _ hlt
        refine ⟨take_prefix_mono (by omega) ha, ?_⟩
        have hdrop := drop_decomp_of_take_eq (by omega : i ≤ i + d + 1) (by omega) ha
        have htk : (buf.take (i + d + 1)).drop i = (buf.drop i).take (d + 1) := by
          rw [show i + d + 1 = i + (d + 1) by omega, ← List.take_drop]
        rw [htk] at hdrop
        have htk2 : (buf.drop i).take (d + 1) = (buf.drop i).take d ++ [47] := by
          conv_lhs => rw [hdecomp]
          rw [show d + 1 = ((buf.drop i).take d).length + 1 by rw [hAlen]]
          rw [List.take_append]
          rfl
        rw [htk2, List.append_assoc, List.singleton_append] at hdrop
        rw [hdrop, componentsOf_append_sep _ hfree]
        intro c hc
        rcases List.mem_cons.mp hc with hc | hc
        · subst hc
          rw [hAlen]
          exact hd254
        · exact hb c hc
    | none =>
      simp only [hsep] at h
      have hfree := findSep_none hsep
      split_ifs at h with hlt hue hge
      · rw [Except.ok.injEq, Prod.mk.injEq] at h
        obtain ⟨hX, ht⟩ := h
        subst hX
        have hel : ext_len < utilsGetUtf8StringLimit (buf.drop i) (buf.length - i)
            NT_MAX_FILENAME_LENGTH := by omega
        have hlcp254 := utilsGetUtf8StringLimit_le_254 (buf.drop i) (buf.length - i) hlt
        set lcp := utilsGetUtf8StringLimit (buf.drop i) (buf.length - i)
          NT_MAX_FILENAME_LENGTH with hlcpdef
        have hfirstlen : (buf.take (i + lcp - ext_len)).length = i + lcp - ext_len := by
          rw [List.length_take]
          omega
        refine ⟨?_, ?_⟩
        · rw [List.take_append_of_le_length (by rw [hfirstlen]; omega)]
          rw [List.take_take, Nat.min_eq_left (by omega)]
        · have hdrop : (buf.take (i + lcp - ext_len) ++ buf.drop (buf.length - ext_len)).drop i =
              (buf.drop i).take (lcp - ext_len) ++ buf.drop (buf.length - ext_len) := by
            rw [List.drop_append_of_le_length (by rw [hfirstlen]; omega)]
            rw [show i + lcp - ext_len = i + (lcp - ext_len) by omega, ← List.take_drop]
          rw [hdrop]
          have hfree2 : (47 : Nat) ∉ (buf.drop i).take (lcp - ext_len) ++
              buf.drop (buf.length - ext_len) := by
            intro hmem
            rcases List.mem_append.mp hmem with hm | hm
            · exact hfree (List.take_subset _ _ hm)
            · apply hfree
              rw [show buf.length - ext_len = i + (buf.length - ext_len - i) by omega,
                ← List.drop_drop] at hm
              exact List.drop_subset _ _ hm
          rw [componentsOf_sepFree hfree2]
          intro c hc
          rw [List.mem_singleton] at hc
          subst hc
          rw [List.length_append, List.length_take, List.length_drop, List.length_drop]
          omega
      · rw [Except.ok.injEq, Prod.mk.injEq] at h
        obtain ⟨hX, ht⟩ := h
        subst hX
        have hlcp254 := utilsGetUtf8StringLimit_le_254 (buf.drop i) (buf.length - i) hlt
        set lcp := utilsGetUtf8StringLimit (buf.drop i) (buf.length - i)
          NT_MAX_FILENAME_LENGTH with hlcpdef
        refine ⟨?_, ?_⟩
        · rw [List.take_take, Nat.min_eq_left (by omega)]
        · rw [← List.take_drop]
          have hfree2 : (47 : Nat) ∉ (buf.drop i).take lcp :=
            fun hm => hfree (List.take_subset _ _ hm)
          rw [componentsOf_sepFree hfree2]
          intro c hc
          rw [List.mem_singleton] at hc
          subst hc
          rw [List.length_take, List.length_drop]
          omega
      · rw [Except.ok.injEq, Prod.mk.injEq] at h
        obtain ⟨hX, ht⟩ := h
        subst hX
        have hsmall := utilsGetUtf8StringLimit_ge_small (buf.drop i) (buf.length - i) hlt
        refine ⟨rfl, ?_⟩
        rw [componentsOf_sepFree hfree]
        intro c hc
        rw [List.mem_singleton] at hc
        subst hc
        rw [List.length_drop]
        omega

theorem findSep_take_succ {l : List Nat} {d : Nat} (h : findSep l = some d) :
    l.take (d + 1) = l.take d ++ [47] := by
  obtain ⟨hd1, hdec⟩ := findSep_decomp h
  conv_lhs => rw [hdec]
  rw [show d + 1 = (l.take d).length + 1 by rw [List.length_take]; omega]
  rw [List.take_append]
  rfl

theorem utilsGeneratePathT_components (pre fn ext : Option (List Nat)) (buf : List Nat)
    (t : Bool) (hT : utilsGeneratePathT pre fn ext = .ok (buf, t)) :
    buf.length < FS_MAX_PATH ∧
    (∀ c ∈ (componentsOf buf).tail, c.length ≤ 255) ∧
    ((componentsOf buf).length = 1 → buf.length ≤ 255) := by
  simp only [utilsGeneratePathT] at hT
  cases fn with
  | none => cases hT
  | some f =>
    simp only [] at hT
    by_cases hfn : f = []
    · rw [if_pos hfn] at hT
      cases hT
    · rw [if_neg hfn] at hT
      split at hT
      · cases hT
      · rename_i buf2 t2 heq
        split_ifs at hT with hfs
        rw [Except.ok.injEq, Prod.mk.injEq] at hT
        obtain ⟨hb2, ht2⟩ := hT
        subst hb2
        subst ht2
        refine ⟨by omega, ?_⟩
        split at heq
        · rename_i d hsep0
          have hd1 := (findSep_some hsep0).1
          obtain ⟨ha, hb⟩ := genLoop_components _ _ _ _ _ _ _ (by omega) heq
          have hfree := findSep_take_not_mem hsep0
          have hdecomp := (List.take_append_drop (d + 1) buf2).symm
          rw [ha, findSep_take_succ hsep0, List.append_assoc, List.singleton_append]
            at hdecomp
          have hcs := componentsOf_append_sep (buf2.drop (d + 1)) hfree
          rw [← hdecomp] at hcs
          constructor
          · intro c hc
            rw [hcs, List.tail_cons] at hc
            have := hb c hc
            omega
          · intro h1
            rw [hcs, List.length_cons] at h1
            have h2 := componentsOf_ne_nil (buf2.drop (d + 1))
            have h3 : (componentsOf (buf2.drop (d + 1))).length = 0 := by omega
            exact absurd (List.length_eq_zero.mp h3) h2
        · rename_i hsep0
          obtain ⟨ha, hb⟩ := genLoop_components _ _ _ _ _ _ _ (Nat.zero_le _) heq
          rw [List.drop_zero] at hb
          constructor
          · intro c hc
            have := hb c (List.mem_of_mem_tail hc)
            omega
          · intro hlen1
            cases hcs : componentsOf buf2 with
            | nil => exact absurd hcs (componentsOf_ne_nil _)
            | cons c cs =>
              rw [hcs] at hlen1
              simp only [List.length_cons, Nat.add_left_eq_self,
                List.length_eq_zero] at hlen1
              have hbc : buf2 = c := componentsOf_eq_singleton (by rw [hcs, hlen1])
              have := hb c (by rw [hcs]; exact List.mem_cons_self c cs)
              rw [hbc]
              omega

set_option maxRecDepth 10000 in
/-- C6 (counterexample): the original claim bounds EVERY path component of a
successful `utilsGeneratePath` result by 255 bytes.  But the C loop starts at
`strchr(path, '/')`, so the component before the first separator is never
length-checked: a prefix whose first component is 300 bytes passes through
unchanged, with the 300-byte component intact in the successful result. -/
theorem claim_C6_counterexample :
    utilsGeneratePath (some (List.replicate 300 65 ++ [47, 120])) (some [102]) none =
      .ok (List.replicate 300 65 ++ [47, 120, 47, 102]) ∧
    (componentsOf (List.replicate 300 65 ++ [47, 120, 47, 102])).getD 0 [] =
      List.replicate 300 65 ∧
    255 < (List.replicate 300 65 : List Nat).length := by
  refine ⟨by decide, by decide, by decide⟩

/-- C6 (amended): every successful `utilsGeneratePath` result is strictly
shorter than `FS_MAX_PATH` (769) bytes, every path component AFTER the first
separator is at most 255 bytes, and a path with no separator at all is
itself at most 255 bytes.  The component before the first separator (such as
a device prefix) is never length-checked, because the truncation loop starts
scanning at the first `/` of the concatenated path. -/
theorem claim_C6_amended (pre fn ext : Option (List Nat)) (out : List Nat)
    (h : utilsGeneratePath pre fn ext = .ok out) :
    out.length < FS_MAX_PATH ∧
    (∀ c ∈ (componentsOf out).tail, c.length ≤ 255) ∧
    ((componentsOf out).length = 1 → out.length ≤ 255) := by
  unfold utilsGeneratePath at h
  cases hT : utilsGeneratePathT pre fn ext with
  | error e => rw [hT] at h; cases h
  | ok p =>
    obtain ⟨buf, t⟩ := p
    rw [hT] at h
    simp only [Except.map, Except.ok.injEq] at h
    subst h
    exact utilsGeneratePathT_components pre fn ext buf t hT

/-- C6 (witness): the amended theorem applied at a concrete successful call. -/
theorem claim_C6_amended_witness :
    ([97] : List Nat).length < FS_MAX_PATH ∧
    (∀ c ∈ (componentsOf ([97] : List Nat)).tail, c.length ≤ 255) ∧
    ((componentsOf ([97] : List Nat)).length = 1 → ([97] : List Nat).length ≤ 255) :=
  claim_C6_amended none (some [97]) none [97] (by decide)
